import Mathlib

set_option autoImplicit false

/-
Verification of the STL surface pathing program.

Shallow embedding of the two algorithmic source files:
  - STL_Parser.py : parse_stl, parse_ascii_stl, parse_binary_stl
  - path_finder.py : get_closest_face_to_point, bfs_path

Modelling conventions:
  - A file's content is a byte buffer `List ℕ` (each entry one byte value).
  - IEEE-754 float32 decoding (struct.unpack) and Python's float(str) parser
    are runtime/library services external to the program text; they are
    modelled as parameters `f32 : List ℕ → F` (4 bytes to a coordinate) and
    `parseF : String → Option F` (ValueError becomes `none`).  The coordinate
    type `F` is abstract; concrete instantiations used by witnesses pick
    `F := ℤ` with simple executable decoders.
  - Python's locale-dependent text decoding of a byte buffer into lines
    (`open(path, 'r')`, raising UnicodeDecodeError on undecodable bytes) is a
    parameter `decodeText : List ℕ → Option (List String)`, `none` meaning the
    decode raised.
  - Fallible Python functions returning None or raising are embedded with
    `Option` / `Except`.
-/

namespace STLParser

/-- Decoding of struct.unpack('<I', bs): little-endian unsigned 32-bit value of
a 4-byte buffer.  Callers only invoke it after checking the length is 4. -/
def leU32 (bs : List ℕ) : ℕ :=
  match bs with
  | [b0, b1, b2, b3] => b0 + 256 * b1 + 65536 * b2 + 16777216 * b3
  | _ => 0

/-- The 4-byte field of a 50-byte binary STL record starting at byte `off`,
decoded by the float32 decoder.  Mirrors picking one float out of
struct.unpack('12fH', record). -/
def f32at {F : Type} (f32 : List ℕ → F) (r : List ℕ) (off : ℕ) : F :=
  f32 ((r.drop off).take 4)

/-- Vertices of one 50-byte binary record: parts[3:12] of
struct.unpack('12fH', record) reshaped to 3 x 3, i.e. the nine floats at byte
offsets 12,16,...,44 (the normal occupies offsets 0..11, the attribute count
bytes 48..49; neither is used). -/
def triOfRecord {F : Type} (f32 : List ℕ → F) (r : List ℕ) : List (List F) :=
  [[f32at f32 r 12, f32at f32 r 16, f32at f32 r 20],
   [f32at f32 r 24, f32at f32 r 28, f32at f32 r 32],
   [f32at f32 r 36, f32at f32 r 40, f32at f32 r 44]]

/-- The record-reading loop of parse_binary_stl: read up to `n` consecutive
50-byte records from `bytes`; if fewer than 50 bytes remain, stop and return
the triangles parsed so far (Python: `return vertices[:i]`). -/
def readTris {F : Type} (f32 : List ℕ → F) : ℕ → List ℕ → List (List (List F))
  | 0, _ => []
  | n + 1, bytes =>
    if bytes.length < 50 then []
    else triOfRecord f32 (bytes.take 50) :: readTris f32 n (bytes.drop 50)

/-- parse_binary_stl: skip the 80-byte header, read the little-endian u32
triangle count (fewer than 4 bytes available is an error, `none`), a count of
zero gives an empty array, otherwise read the records. -/
def parse_binary_stl {F : Type} (f32 : List ℕ → F) (data : List ℕ) :
    Option (List (List (List F))) :=
  let countBytes := (data.drop 80).take 4
  if countBytes.length < 4 then none
  else
    let num := leU32 countBytes
    if num = 0 then some []
    else some (readTris f32 num (data.drop 84))

theorem parse_binary_stl_eq {F : Type} (f32 : List ℕ → F) (data : List ℕ)
    (h : 84 ≤ data.length) :
    parse_binary_stl f32 data =
      some (readTris f32 (leU32 ((data.drop 80).take 4)) (data.drop 84)) := by
  unfold parse_binary_stl
  have hlen : ((data.drop 80).take 4).length = 4 := by
    simp [List.length_take, List.length_drop]
    omega
  simp only [hlen, show ¬ (4 < 4) from by omega, if_false]
  by_cases h0 : leU32 ((data.drop 80).take 4) = 0
  · simp [h0, readTris]
  · simp [h0]

theorem readTris_length {F : Type} (f32 : List ℕ → F) :
    ∀ (n : ℕ) (bytes : List ℕ),
      (readTris f32 n bytes).length = min n (bytes.length / 50)
  | 0, _ => by simp [readTris]
  | n + 1, bytes => by
    unfold readTris
    by_cases h : bytes.length < 50
    · have : bytes.length / 50 = 0 := by omega
      simp [h, this]
    · have hrec := readTris_length f32 n (bytes.drop 50)
      simp only [h, if_false, List.length_cons, hrec, List.length_drop]
      have h50 : 50 ≤ bytes.length := by omega
      have : (bytes.length - 50) / 50 = bytes.length / 50 - 1 := by omega
      rw [this]
      have : 1 ≤ bytes.length / 50 := by omega
      omega

theorem readTris_get? {F : Type} (f32 : List ℕ → F) :
    ∀ (n : ℕ) (bytes : List ℕ) (i : ℕ), i < (readTris f32 n bytes).length →
      (readTris f32 n bytes).get? i =
        some (triOfRecord f32 ((bytes.drop (50 * i)).take 50))
  | 0, _, _, h => by simp [readTris] at h
  | n + 1, bytes, i, h => by
    unfold readTris at h ⊢
    by_cases hb : bytes.length < 50
    · simp [hb] at h
    · simp only [hb, if_false] at h ⊢
      match i with
      | 0 => simp
      | i + 1 =>
        simp only [List.length_cons, Nat.add_lt_add_iff_right] at h
        have hrec := readTris_get? f32 n (bytes.drop 50) i h
        simp only [List.get?_cons_succ, hrec, List.drop_drop]
        have h50i : 50 + 50 * i = 50 * (i + 1) := by ring
        rw [h50i]

/-- Keyword checked by `line.startswith('vertex')`. -/
def vertexTok : String := "vertex"

/-- Python's `str.strip()`: remove leading and trailing whitespace.  Modelled
directly on the character list so that it is structurally recursive (Lean's
own String.trim does not reduce inside the kernel). -/
def pyStrip (s : String) : String :=
  String.mk (((s.data.dropWhile Char.isWhitespace).reverse.dropWhile
    Char.isWhitespace).reverse)

/-- Python's `str.startswith(p)`: is `p` a prefix of `s`? -/
def pyStartsWith (s p : String) : Bool := p.data.isPrefixOf s.data

/-- Accumulator pass of `str.split()`: `acc` holds the characters of the
current field, reversed. -/
def pySplitAux : List Char → List Char → List String
  | [], acc => if acc.isEmpty then [] else [String.mk acc.reverse]
  | c :: cs, acc =>
    if c.isWhitespace then
      if acc.isEmpty then pySplitAux cs []
      else String.mk acc.reverse :: pySplitAux cs []
    else pySplitAux cs (c :: acc)

/-- Python's `line.split()`: split on whitespace runs, discarding empty
fields. -/
def splitFields (l : String) : List String := pySplitAux l.data []

/-- Building `[float(parts[1]), float(parts[2]), float(parts[3])]`: the floats
are parsed left to right and a ValueError (a `none` from `parseF`) on any of
them aborts the whole vertex (the caller then discards the accumulator).
Called only after the `len(parts) == 4` check. -/
def parseVertex {F : Type} (parseF : String → Option F) : List String → Option (List F)
  | [_, xs, ys, zs] =>
    match parseF xs, parseF ys, parseF zs with
    | some x, some y, some z => some [x, y, z]
    | _, _, _ => none
  | _ => none

/-- The line loop of parse_ascii_stl.  `tri` is the in-progress triangle
accumulator.  A stripped line starting with 'vertex' and splitting into
exactly 4 fields contributes a vertex (completing a triangle at every third
vertex); a 4-field line whose floats fail to parse resets the accumulator;
a 'vertex' line with a different field count is skipped without touching the
accumulator; other lines are ignored. -/
def asciiScan {F : Type} (parseF : String → Option F) :
    List String → List (List F) → List (List (List F))
  | [], _ => []
  | line :: rest, tri =>
    let l := pyStrip line
    if pyStartsWith l vertexTok then
      let parts := splitFields l
      if parts.length = 4 then
        match parseVertex parseF parts with
        | some v =>
          let tri2 := tri ++ [v]
          if tri2.length = 3 then tri2 :: asciiScan parseF rest []
          else asciiScan parseF rest tri2
        | none => asciiScan parseF rest []
      else asciiScan parseF rest tri
    else asciiScan parseF rest tri

/-- parse_ascii_stl over a byte buffer.  `Except.error ()` is an exception
escaping the function (text decoding failed); `Except.ok none` is the `None`
returned when no vertices were found; `Except.ok (some ts)` is a successful
parse. -/
def parse_ascii_stl {F : Type} (decodeText : List ℕ → Option (List String))
    (parseF : String → Option F) (data : List ℕ) :
    Except Unit (Option (List (List (List F)))) :=
  match decodeText data with
  | none => Except.error ()
  | some lines =>
    let vertices := asciiScan parseF lines []
    Except.ok (if vertices.isEmpty then none else some vertices)

/-- The bytes of the ASCII literal 'solid'. -/
def solidBytes : List ℕ := [115, 111, 108, 105, 100]

/-- parse_stl: sniff the first 5 bytes; on 'solid' try ASCII first and fall
back to a binary parse of the same buffer from offset 0 only if ASCII parsing
raised; otherwise parse as binary directly.  `none` is the caller-visible
failure value. -/
def parse_stl {F : Type} (decodeText : List ℕ → Option (List String))
    (parseF : String → Option F) (f32 : List ℕ → F) (data : List ℕ) :
    Option (List (List (List F))) :=
  if data.take 5 = solidBytes then
    match parse_ascii_stl decodeText parseF data with
    | Except.ok r => r
    | Except.error _ => parse_binary_stl f32 data
  else parse_binary_stl f32 data

end STLParser

namespace PathFinder

/-- Squared Euclidean distance between two 3D points with exact (rational)
coordinates.  np.linalg.norm computes the Euclidean distance; since the square
root is strictly monotone, comparing squared distances compares distances, so
the argmin over `dist2` is the argmin over the Euclidean distance. -/
def dist2 (a b : ℚ × ℚ × ℚ) : ℚ :=
  (a.1 - b.1) * (a.1 - b.1) + (a.2.1 - b.2.1) * (a.2.1 - b.2.1) +
    (a.2.2 - b.2.2) * (a.2.2 - b.2.2)

/-- np.argmin's scan: `ds` are the distances at positions `idx, idx+1, ...`,
`bv` the best value seen so far, found at position `b`.  Only a strictly
smaller value updates the best, so the first occurrence of the minimum wins. -/
def argminAux : List ℚ → ℚ → ℕ → ℕ → ℕ
  | [], _, _, b => b
  | d :: ds, bv, idx, b =>
    if d < bv then argminAux ds d (idx + 1) idx
    else argminAux ds bv (idx + 1) b

/-- get_closest_face_to_point: Euclidean distance from the query point to every
face centroid (`mesh_obj.triangles_center`, given here as the list `centers`),
then np.argmin.  np.argmin on an empty array raises, modelled as `none`; the
caller only uses meshes with at least one face. -/
def get_closest_face_to_point (point : ℚ × ℚ × ℚ) (centers : List (ℚ × ℚ × ℚ)) :
    Option ℕ :=
  let distances := centers.map fun c => dist2 c point
  match distances with
  | [] => none
  | d :: ds => some (argminAux ds d 1 0)

/-- Adjacency lookup `graph[v]`.  Under the validity hypotheses of the claims
(`v` a valid face index of an adjacency list) the index is always in range, so
the default never fires (Python would raise on an out-of-range index). -/
def neighbors (g : List (List ℕ)) (v : ℕ) : List ℕ := g.getD v []

/-- Body of `for neighbor in graph[current_node]`: walk the neighbor list of
the dequeued node, returning `none` as soon as a neighbor equals `end_node`
(Python: `return path + [neighbor]`), otherwise collecting the entries
appended to the queue and threading the visited set. -/
def scanNeighbors (e : ℕ) (p : List ℕ) :
    List ℕ → Finset ℕ → Option (List (ℕ × List ℕ) × Finset ℕ)
  | [], vis => some ([], vis)
  | n :: ns, vis =>
    if n = e then none
    else if n ∈ vis then scanNeighbors e p ns vis
    else
      match scanNeighbors e p ns (insert n vis) with
      | none => none
      | some (news, vis2) => some ((n, p ++ [n]) :: news, vis2)

/-- The `while queue:` loop of bfs_path.  The queue stores (node, path) pairs
and is popped at the front; freshly discovered neighbors are appended at the
back.  The Python loop terminates because the visited set grows; the explicit
`fuel` is an upper bound on the number of iterations, chosen large enough in
`bfs_path` that it never runs out (proved in the correctness lemma). -/
def bfsLoop (g : List (List ℕ)) (e : ℕ) :
    ℕ → List (ℕ × List ℕ) → Finset ℕ → Option (List ℕ)
  | _, [], _ => none
  | 0, _ :: _, _ => none
  | fuel + 1, (c, p) :: rest, vis =>
    match scanNeighbors e p (neighbors g c) vis with
    | none => some (p ++ [e])
    | some (news, vis2) => bfsLoop g e fuel (rest ++ news) vis2

/-- Every node value occurring in the adjacency list, plus `s`: a finite
superset of everything the visited set can ever contain. -/
def allNodes (g : List (List ℕ)) (s : ℕ) : Finset ℕ :=
  insert s (g.foldr (fun l acc => l.foldr insert acc) ∅)

/-- bfs_path: trivial `start == end` case, then the BFS loop seeded with the
start node. -/
def bfs_path (g : List (List ℕ)) (s e : ℕ) : Option (List ℕ) :=
  if s = e then some [s]
  else bfsLoop g e ((allNodes g s).card + 1) [(s, [s])] {s}

/-- A walk in the adjacency structure from `s` to `t`: a nonempty node
sequence starting at `s`, ending at `t`, each consecutive pair linked in the
graph. -/
def walkFrom (g : List (List ℕ)) (s t : ℕ) (q : List ℕ) : Prop :=
  q.head? = some s ∧ q.getLast? = some t ∧
    List.Chain' (fun a b => b ∈ neighbors g a) q

end PathFinder

namespace STLParser

/-- A simple executable instantiation of the abstract coordinate parser used
by witnesses and counterexamples: coordinates are integers parsed with
a digit scanner, unparseable fields give `none` (Python float() raising
ValueError). -/
def digitsToNatAux : List Char → ℕ → Option ℕ
  | [], acc => some acc
  | c :: cs, acc =>
    if c.isDigit then digitsToNatAux cs (acc * 10 + (c.toNat - 48)) else none

def intParse : String → Option ℤ := fun s =>
  match s.data with
  | [] => none
  | c :: cs =>
    if c = Char.ofNat 45 then
      match cs with
      | [] => none
      | _ :: _ => (digitsToNatAux cs 0).map fun n => -(n : ℤ)
    else (digitsToNatAux (c :: cs) 0).map fun n => (n : ℤ)

/-- A simple executable instantiation of the abstract 4-byte float32 decoder
used by witnesses and counterexamples: the little-endian 32-bit value as an
integer. -/
def bytesInt : List ℕ → ℤ := fun bs => (leU32 bs : ℤ)

theorem parse_binary_stl_none_of_short {F : Type} (f32 : List ℕ → F)
    (data : List ℕ) (h : data.length < 84) : parse_binary_stl f32 data = none := by
  have hlt : ((data.drop 80).take 4).length < 4 := by
    simp [List.length_take, List.length_drop]
    omega
  simp only [parse_binary_stl]
  rw [if_pos hlt]

/-- Shape of every record triangle: 3 vertices of 3 coordinates. -/
theorem triOfRecord_shape {F : Type} (f32 : List ℕ → F) (r : List ℕ) :
    (triOfRecord f32 r).length = 3 ∧ ∀ v ∈ triOfRecord f32 r, v.length = 3 := by
  simp [triOfRecord]

theorem readTris_shape {F : Type} (f32 : List ℕ → F) :
    ∀ (n : ℕ) (bytes : List ℕ), ∀ t ∈ readTris f32 n bytes,
      t.length = 3 ∧ ∀ v ∈ t, v.length = 3
  | 0, _ => by simp [readTris]
  | n + 1, bytes => by
    intro t ht
    unfold readTris at ht
    by_cases h : bytes.length < 50
    · simp [h] at ht
    · simp only [h, if_false, List.mem_cons] at ht
      rcases ht with rfl | ht
      · exact triOfRecord_shape f32 _
      · exact readTris_shape f32 n (bytes.drop 50) t ht

/-- Restriction of a record's field at offset `o` to the vertex byte region
bytes 12..47 of the record. -/
theorem f32at_slice {F : Type} (f32 : List ℕ → F) (r : List ℕ) (o : ℕ)
    (h1 : 12 ≤ o) (h2 : o + 4 ≤ 48) :
    f32at f32 r o = f32 ((((r.drop 12).take 36).drop (o - 12)).take 4) := by
  unfold f32at
  congr 1
  rw [List.drop_take, List.take_take, List.drop_drop]
  rw [show min 4 (36 - (o - 12)) = 4 by omega, show 12 + (o - 12) = o by omega]

/-- The triangle extracted from a record depends only on the record's vertex
bytes (offsets 12..47); the stored normal (bytes 0..11) and the attribute
count (bytes 48..49) are irrelevant. -/
theorem triOfRecord_eq_of_vertex_bytes {F : Type} (f32 : List ℕ → F)
    (r₁ r₂ : List ℕ) (h : (r₁.drop 12).take 36 = (r₂.drop 12).take 36) :
    triOfRecord f32 r₁ = triOfRecord f32 r₂ := by
  have key : ∀ o, 12 ≤ o → o + 4 ≤ 48 → f32at f32 r₁ o = f32at f32 r₂ o := by
    intro o h1 h2
    rw [f32at_slice f32 r₁ o h1 h2, f32at_slice f32 r₂ o h1 h2, h]
  unfold triOfRecord
  rw [key 12 (by omega) (by omega), key 16 (by omega) (by omega),
    key 20 (by omega) (by omega), key 24 (by omega) (by omega),
    key 28 (by omega) (by omega), key 32 (by omega) (by omega),
    key 36 (by omega) (by omega), key 40 (by omega) (by omega),
    key 44 (by omega) (by omega)]

/-- C7: the binary decode fails exactly when fewer than 4 bytes are available
for the triangle-count field after the 80-byte header (i.e. the buffer is
shorter than 84 bytes), and a present count field declaring zero triangles
yields a successful empty triangle list, not an error. -/
theorem parse_binary_stl_header_behavior {F : Type} (f32 : List ℕ → F)
    (data : List ℕ) :
    (parse_binary_stl f32 data = none ↔ data.length < 84) ∧
    (84 ≤ data.length → leU32 ((data.drop 80).take 4) = 0 →
      parse_binary_stl f32 data = some []) := by
  refine ⟨⟨fun h => ?_, fun h => parse_binary_stl_none_of_short f32 data h⟩,
    fun h h0 => ?_⟩
  · by_contra hlen
    push_neg at hlen
    rw [parse_binary_stl_eq f32 data hlen] at h
    exact Option.noConfusion h
  · rw [parse_binary_stl_eq f32 data h, h0]
    simp [readTris]

/-- Concrete buffer: 80-byte header, count field 0. -/
def bin84z : List ℕ := List.replicate 80 7 ++ [0, 0, 0, 0]

set_option maxRecDepth 100000 in
theorem parse_binary_stl_header_behavior_witness :
    84 ≤ bin84z.length ∧ parse_binary_stl bytesInt bin84z = some [] :=
  ⟨by decide, (parse_binary_stl_header_behavior bytesInt bin84z).2 (by decide) (by decide)⟩

/-- C4: with a complete header and count field declaring N triangles, a
payload holding N complete 50-byte records decodes to exactly N triangles,
and a payload truncated after k < N complete records decodes successfully to
exactly the first k triangles (not an error). -/
theorem parse_binary_stl_count {F : Type} (f32 : List ℕ → F) (data : List ℕ)
    (h : 84 ≤ data.length) :
    (50 * leU32 ((data.drop 80).take 4) ≤ (data.drop 84).length →
      ∃ ts, parse_binary_stl f32 data = some ts ∧
        ts.length = leU32 ((data.drop 80).take 4)) ∧
    (∀ k, k < leU32 ((data.drop 80).take 4) →
      50 * k ≤ (data.drop 84).length → (data.drop 84).length < 50 * (k + 1) →
      ∃ ts, parse_binary_stl f32 data = some ts ∧ ts.length = k ∧
        ∀ i, i < k → ts.get? i =
          some (triOfRecord f32 (((data.drop 84).drop (50 * i)).take 50))) := by
  rw [parse_binary_stl_eq f32 data h]
  set N := leU32 ((data.drop 80).take 4) with hN
  constructor
  · intro hfull
    refine ⟨_, rfl, ?_⟩
    rw [readTris_length]
    omega
  · intro k hk h1 h2
    have hlen : (readTris f32 N (data.drop 84)).length = k := by
      rw [readTris_length]
      omega
    refine ⟨_, rfl, hlen, fun i hi => ?_⟩
    exact readTris_get? f32 N (data.drop 84) i (by omega)

/-- Concrete truncated buffer: header, count field 3, but only two complete
50-byte records present. -/
def bin184 : List ℕ := List.replicate 80 0 ++ [3, 0, 0, 0] ++ List.replicate 100 1

set_option maxRecDepth 100000 in
theorem parse_binary_stl_count_witness :
    84 ≤ bin184.length ∧
    ∃ ts, parse_binary_stl bytesInt bin184 = some ts ∧ ts.length = 2 ∧
      ∀ i, i < 2 → ts.get? i =
        some (triOfRecord bytesInt (((bin184.drop 84).drop (50 * i)).take 50)) :=
  ⟨by decide, (parse_binary_stl_count bytesInt bin184 (by decide)).2 2 (by decide)
    (by decide) (by decide)⟩

/-- C10: every triangle of a successful binary decode is exactly the 3 x 3
array of the record's nine vertex coordinates (bytes 12..47 of the 50-byte
record); the stored normal vector and the attribute count never influence the
returned triangle list. -/
theorem parse_binary_stl_vertex_bytes_only {F : Type} (f32 : List ℕ → F)
    (data : List ℕ) (ts : List (List (List F)))
    (h : parse_binary_stl f32 data = some ts) :
    (∀ i, i < ts.length →
      ts.get? i = some (triOfRecord f32 (((data.drop 84).drop (50 * i)).take 50))) ∧
    (∀ r₁ r₂ : List ℕ, (r₁.drop 12).take 36 = (r₂.drop 12).take 36 →
      triOfRecord f32 r₁ = triOfRecord f32 r₂) ∧
    (∀ t ∈ ts, t.length = 3 ∧ ∀ v ∈ t, v.length = 3) := by
  have h84 : 84 ≤ data.length := by
    by_contra hc
    push_neg at hc
    rw [parse_binary_stl_none_of_short f32 data hc] at h
    exact Option.noConfusion h
  rw [parse_binary_stl_eq f32 data h84] at h
  have hts : ts = readTris f32 (leU32 ((data.drop 80).take 4)) (data.drop 84) :=
    (Option.some.injEq _ _).mp h.symm
  subst hts
  exact ⟨fun i hi => readTris_get? _ _ _ i hi,
    fun r₁ r₂ hr => triOfRecord_eq_of_vertex_bytes f32 r₁ r₂ hr,
    fun t ht => readTris_shape f32 _ _ t ht⟩

/-- Concrete complete buffer: header, count field 1, one 50-byte record. -/
def bin134 : List ℕ := List.replicate 80 0 ++ [1, 0, 0, 0] ++ List.range 50

/-- The triangle decoded from the single record of bin134. -/
def tri50 : List (List ℤ) := triOfRecord bytesInt (List.range 50)

set_option maxRecDepth 100000 in
theorem parse_binary_stl_vertex_bytes_only_witness :
    parse_binary_stl bytesInt bin134 = some [tri50] ∧
    (∀ r₁ r₂ : List ℕ, (r₁.drop 12).take 36 = (r₂.drop 12).take 36 →
      triOfRecord bytesInt r₁ = triOfRecord bytesInt r₂) :=
  ⟨by decide,
    (parse_binary_stl_vertex_bytes_only bytesInt bin134 [tri50] (by decide)).2.1⟩

end STLParser

namespace STLParser

/-- One-step unfolding of the line loop. -/
theorem asciiScan_cons {F : Type} (parseF : String → Option F) (line : String)
    (rest : List String) (tri : List (List F)) :
    asciiScan parseF (line :: rest) tri =
      if pyStartsWith (pyStrip line) vertexTok then
        if (splitFields (pyStrip line)).length = 4 then
          match parseVertex parseF (splitFields (pyStrip line)) with
          | some v =>
            if (tri ++ [v]).length = 3 then (tri ++ [v]) :: asciiScan parseF rest []
            else asciiScan parseF rest (tri ++ [v])
          | none => asciiScan parseF rest []
        else asciiScan parseF rest tri
      else asciiScan parseF rest tri := rfl

/-- Does the stripped line start with 'vertex'? -/
def isVertexLine (line : String) : Bool := pyStartsWith (pyStrip line) vertexTok

/-- Spec-side grouping of a vertex stream into triangles: consecutive groups
of three, the incomplete remainder dropped.  Stated from the spec's words
('triangles are completed every 3 accumulated vertices, in file order') for
comparison against asciiScan. -/
def groupsOf3 {α : Type} : List α → List (List α)
  | a :: b :: c :: rest => [a, b, c] :: groupsOf3 rest
  | _ => []

/-- Spec-side stream of parsed vertices: the successfully parsed value of each
'vertex' line, in file order. -/
def vertexVals {F : Type} (parseF : String → Option F) (lines : List String) :
    List (List F) :=
  lines.filterMap fun line =>
    if isVertexLine line then parseVertex parseF (splitFields (pyStrip line)) else none

theorem groupsOf3_small {α : Type} (L : List α) (h : L.length ≤ 2) :
    groupsOf3 L = [] := by
  rcases L with _ | ⟨a, _ | ⟨b, _ | ⟨c, L⟩⟩⟩
  · rfl
  · rfl
  · rfl
  · simp at h

theorem groupsOf3_append3 {α : Type} (t : List α) (ht : t.length = 3)
    (L : List α) : groupsOf3 (t ++ L) = t :: groupsOf3 L := by
  rcases t with _ | ⟨a, _ | ⟨b, _ | ⟨c, _ | ⟨d, t⟩⟩⟩⟩
  · simp at ht
  · simp at ht
  · simp at ht
  · rfl
  · simp at ht

theorem groupsOf3_length {α : Type} :
    ∀ L : List α, (groupsOf3 L).length = L.length / 3
  | [] => by simp [groupsOf3]
  | [a] => by simp [groupsOf3]
  | [a, b] => by simp [groupsOf3]
  | a :: b :: c :: L => by
    simp only [groupsOf3, List.length_cons, groupsOf3_length L]
    omega

theorem vertexVals_length {F : Type} (parseF : String → Option F) :
    ∀ lines : List String,
      (∀ line ∈ lines, isVertexLine line = true →
        (parseVertex parseF (splitFields (pyStrip line))).isSome = true) →
      (vertexVals parseF lines).length = lines.countP isVertexLine
  | [], _ => by simp [vertexVals]
  | line :: rest, hw => by
    have hrec := vertexVals_length parseF rest fun l hl => hw l (List.mem_cons_of_mem _ hl)
    by_cases hv : isVertexLine line
    · obtain ⟨v, hp⟩ := Option.isSome_iff_exists.mp (hw line (List.mem_cons_self _ _) hv)
      simp [vertexVals, List.countP_cons, hv, hp] at hrec ⊢
      exact hrec
    · simp [vertexVals, List.countP_cons, hv] at hrec ⊢
      exact hrec

theorem asciiScan_wf {F : Type} (parseF : String → Option F) :
    ∀ (lines : List String) (tri : List (List F)),
      (∀ line ∈ lines, isVertexLine line = true →
        (splitFields (pyStrip line)).length = 4 ∧
          (parseVertex parseF (splitFields (pyStrip line))).isSome = true) →
      tri.length ≤ 2 →
      asciiScan parseF lines tri = groupsOf3 (tri ++ vertexVals parseF lines)
  | [], tri, _, htri => by
    rw [show asciiScan parseF [] tri = [] from rfl]
    rw [show vertexVals parseF ([] : List String) = [] from rfl, List.append_nil]
    exact (groupsOf3_small tri htri).symm
  | line :: rest, tri, hw, htri => by
    have hwrest : ∀ l ∈ rest, isVertexLine l = true →
        (splitFields (pyStrip l)).length = 4 ∧
          (parseVertex parseF (splitFields (pyStrip l))).isSome = true :=
      fun l hl => hw l (List.mem_cons_of_mem _ hl)
    rw [asciiScan_cons]
    by_cases hv : isVertexLine line
    · obtain ⟨h4, hsome⟩ := hw line (List.mem_cons_self _ _) hv
      obtain ⟨v, hp⟩ := Option.isSome_iff_exists.mp hsome
      have hvv : vertexVals parseF (line :: rest) = v :: vertexVals parseF rest := by
        simp [vertexVals, hv, hp]
      have hv' : pyStartsWith (pyStrip line) vertexTok = true := hv
      rw [hv', if_pos (Eq.refl true), if_pos h4, hp, hvv]
      dsimp only
      by_cases hlen : (tri ++ [v]).length = 3
      · rw [if_pos hlen]
        rw [asciiScan_wf parseF rest [] hwrest (by simp)]
        rw [show tri ++ v :: vertexVals parseF rest =
          (tri ++ [v]) ++ vertexVals parseF rest by simp]
        rw [groupsOf3_append3 _ hlen]
        simp
      · rw [if_neg hlen]
        have htri2 : (tri ++ [v]).length ≤ 2 := by
          simp at hlen ⊢
          omega
        rw [asciiScan_wf parseF rest (tri ++ [v]) hwrest htri2]
        rw [show tri ++ v :: vertexVals parseF rest =
          (tri ++ [v]) ++ vertexVals parseF rest by simp]
    · have hv' : pyStartsWith (pyStrip line) vertexTok = false := by
        simpa [isVertexLine] using hv
      rw [hv']
      have hvv : vertexVals parseF (line :: rest) = vertexVals parseF rest := by
        simp [vertexVals, hv]
      rw [if_neg (by simp), hvv]
      exact asciiScan_wf parseF rest tri hwrest htri

/-- C6: when every line whose stripped form begins with 'vertex' is
well-formed (exactly 4 whitespace-separated fields, three parseable
coordinates), the scan yields exactly the vertices grouped in threes in file
order — floor(vertex_line_count / 3) triangles — and lines not beginning with
'vertex' have no effect on the output. -/
theorem parse_ascii_wellformed {F : Type} (parseF : String → Option F)
    (lines : List String)
    (hw : ∀ line ∈ lines, isVertexLine line = true →
      (splitFields (pyStrip line)).length = 4 ∧
        (parseVertex parseF (splitFields (pyStrip line))).isSome = true) :
    asciiScan parseF lines [] = groupsOf3 (vertexVals parseF lines) ∧
    (asciiScan parseF lines []).length = (lines.countP isVertexLine) / 3 := by
  have h1 := asciiScan_wf parseF lines [] hw (by simp)
  rw [List.nil_append] at h1
  refine ⟨h1, ?_⟩
  rw [h1, groupsOf3_length,
    vertexVals_length parseF lines fun l hl hv => (hw l hl hv).2]

/-- Concrete well-formed ASCII STL line list (one triangle, four vertex
lines would leave a dropped remainder of one). -/
def lines7 : List String :=
  [r"solid t", r"facet normal 0 0 1", r"vertex 0 0 0", r"vertex 1 0 0",
   r"vertex 0 1 0", r"vertex 2 2 2", r"endsolid t"]

set_option maxRecDepth 100000 in
theorem parse_ascii_wellformed_witness :
    (∀ line ∈ lines7, isVertexLine line = true →
      (splitFields (pyStrip line)).length = 4 ∧
        (parseVertex intParse (splitFields (pyStrip line))).isSome = true) ∧
    (asciiScan intParse lines7 [] = groupsOf3 (vertexVals intParse lines7) ∧
      (asciiScan intParse lines7 []).length = (lines7.countP isVertexLine) / 3) :=
  ⟨by decide, parse_ascii_wellformed intParse lines7 (by decide)⟩

/-- C2 (amended): a 'vertex' line with exactly 4 fields whose coordinates
fail to parse discards the in-progress triangle accumulator and parsing
resumes on the following lines; a 'vertex' line that does not tokenize into
exactly 4 fields is skipped with the accumulator left unchanged (it is not
discarded). -/
theorem asciiScan_malformed_vertex {F : Type} (parseF : String → Option F)
    (line : String) (rest : List String) (tri : List (List F))
    (hv : isVertexLine line = true) :
    ((splitFields (pyStrip line)).length = 4 →
      parseVertex parseF (splitFields (pyStrip line)) = none →
      asciiScan parseF (line :: rest) tri = asciiScan parseF rest []) ∧
    ((splitFields (pyStrip line)).length ≠ 4 →
      asciiScan parseF (line :: rest) tri = asciiScan parseF rest tri) := by
  have hv' : pyStartsWith (pyStrip line) vertexTok = true := hv
  constructor
  · intro h4 hp
    rw [asciiScan_cons, hv', if_pos (Eq.refl true), if_pos h4, hp]
  · intro h4
    rw [asciiScan_cons, hv', if_pos (Eq.refl true), if_neg h4]

set_option maxRecDepth 100000 in
theorem asciiScan_malformed_vertex_witness :
    isVertexLine (r"vertex a b c") = true ∧
    (((splitFields (pyStrip (r"vertex a b c"))).length = 4 →
      parseVertex intParse (splitFields (pyStrip (r"vertex a b c"))) = none →
      asciiScan intParse [r"vertex a b c", r"vertex 9 9 9"] [[5, 5, 5]] =
        asciiScan intParse [r"vertex 9 9 9"] []) ∧
    ((splitFields (pyStrip (r"vertex a b c"))).length ≠ 4 →
      asciiScan intParse [r"vertex a b c", r"vertex 9 9 9"] [[5, 5, 5]] =
        asciiScan intParse [r"vertex 9 9 9"] [[5, 5, 5]])) :=
  ⟨by decide,
    asciiScan_malformed_vertex intParse _ [r"vertex 9 9 9"] [[5, 5, 5]] (by decide)⟩

set_option maxRecDepth 100000 in
/-- C2 counterexample: the claim predicts that the mid-file line 'vertex 1 2'
(3 fields) discards the in-progress accumulator, so the vertices accumulated
before it would be excluded and this four-line input would produce no
triangle.  The code skips such a line without touching the accumulator: the
input produces one triangle built from the vertices surrounding the malformed
line, and feeding the malformed line with a nonempty accumulator is not
equivalent to restarting with an empty accumulator. -/
theorem asciiScan_malformed_counterexample :
    asciiScan intParse
        [r"vertex 0 0 0", r"vertex 1 0 0", r"vertex 1 2", r"vertex 0 1 0"] [] =
      [[[0, 0, 0], [1, 0, 0], [0, 1, 0]]] ∧
    asciiScan intParse [r"vertex 1 2", r"vertex 0 1 0"] [[0, 0, 0], [1, 0, 0]] ≠
      asciiScan intParse [r"vertex 0 1 0"] [] := by
  constructor
  · decide
  · decide

/-- C1 (amended): when the first 5 bytes are 'solid', the fallback to a
binary parse of the same buffer from offset 0 happens exactly when ASCII
decoding raises an exception (here: the text decode fails), and the overall
result is then the binary result; but when ASCII decoding completes with zero
triangles from the (non-empty) input, parse_stl returns the failure value
None directly, without re-attempting binary. -/
theorem parse_stl_fallback {F : Type} (decodeText : List ℕ → Option (List String))
    (parseF : String → Option F) (f32 : List ℕ → F) (data : List ℕ)
    (h5 : data.take 5 = solidBytes) :
    (decodeText data = none →
      parse_stl decodeText parseF f32 data = parse_binary_stl f32 data) ∧
    (∀ lines, decodeText data = some lines → asciiScan parseF lines [] = [] →
      parse_stl decodeText parseF f32 data = none) := by
  constructor
  · intro hdec
    have ha : parse_ascii_stl decodeText parseF data = Except.error () := by
      unfold parse_ascii_stl
      rw [hdec]
    unfold parse_stl
    rw [if_pos h5, ha]
  · intro lines hdec hempty
    have ha : parse_ascii_stl decodeText parseF data =
        Except.ok (none : Option (List (List (List F)))) := by
      unfold parse_ascii_stl
      rw [hdec]
      simp [hempty]
    unfold parse_stl
    rw [if_pos h5, ha]

/-- Text decoder instance representing a byte buffer whose text decoding
raises (e.g. bytes invalid in the locale encoding). -/
def noDecode : List ℕ → Option (List String) := fun _ => none

/-- A buffer beginning with the 'solid' bytes. -/
def solidNoise : List ℕ := solidBytes ++ [255, 254]

set_option maxRecDepth 100000 in
theorem parse_stl_fallback_witness :
    solidNoise.take 5 = solidBytes ∧
    parse_stl noDecode intParse bytesInt solidNoise =
      parse_binary_stl bytesInt solidNoise :=
  ⟨by decide,
    (parse_stl_fallback noDecode intParse bytesInt solidNoise (by decide)).1 rfl⟩

/-- Byte-to-line text decoding used by the C1 counterexample: every byte maps
to the Unicode code point of the same value (as Latin-1 does, and as UTF-8
does on these ASCII bytes) and lines are split at newline bytes; it never
raises. -/
def splitLinesAux : List Char → List Char → List String
  | [], acc => [String.mk acc.reverse]
  | c :: cs, acc =>
    if c = Char.ofNat 10 then String.mk acc.reverse :: splitLinesAux cs []
    else splitLinesAux cs (c :: acc)

def latin1Lines (data : List ℕ) : Option (List String) :=
  some (splitLinesAux (data.map Char.ofNat) [])

/-- An 84-byte buffer that starts with 'solid', decodes as text with no
'vertex' lines (so the ASCII parse reports zero triangles), and is also a
complete binary STL buffer declaring zero triangles. -/
def solidEmpty : List ℕ := solidBytes ++ List.replicate 75 32 ++ [0, 0, 0, 0]

set_option maxRecDepth 1000000 in
/-- C1 counterexample: on this non-empty buffer whose first 5 bytes are
'solid', ASCII decoding completes with zero triangles (a structural error per
the claim), and the binary attempt would succeed (an empty triangle list),
yet parse_stl returns None: the decoder did not re-attempt the input as
binary, contradicting the claim that it only fails overall if the binary
attempt also fails. -/
theorem parse_stl_no_fallback_counterexample :
    solidEmpty ≠ [] ∧ solidEmpty.take 5 = solidBytes ∧
    parse_ascii_stl latin1Lines intParse solidEmpty =
      Except.ok (none : Option (List (List (List ℤ)))) ∧
    parse_binary_stl bytesInt solidEmpty = some [] ∧
    parse_stl latin1Lines intParse bytesInt solidEmpty = none := by
  refine ⟨by decide, by decide, rfl, by decide, rfl⟩

/-- A successfully parsed vertex has exactly 3 coordinates. -/
theorem parseVertex_length {F : Type} (parseF : String → Option F) :
    ∀ (parts : List String) (v : List F),
      parseVertex parseF parts = some v → v.length = 3
  | [], v, h => by simp [parseVertex] at h
  | [a], v, h => by simp [parseVertex] at h
  | [a, b], v, h => by simp [parseVertex] at h
  | [a, b, c], v, h => by simp [parseVertex] at h
  | [a, b, c, d], v, h => by
    simp only [parseVertex] at h
    rcases hx : parseF b with _ | x <;> rw [hx] at h <;>
      rcases hy : parseF c with _ | y <;> rw [hy] at h <;>
        rcases hz : parseF d with _ | z <;> rw [hz] at h <;>
          simp at h
    rw [← h]
    rfl
  | a :: b :: c :: d :: e :: parts, v, h => by simp [parseVertex] at h

/-- Every triangle produced by the ASCII scan has 3 vertices of 3
coordinates. -/
theorem asciiScan_shape {F : Type} (parseF : String → Option F) :
    ∀ (lines : List String) (tri : List (List F)),
      (∀ v ∈ tri, v.length = 3) →
      ∀ t ∈ asciiScan parseF lines tri, t.length = 3 ∧ ∀ v ∈ t, v.length = 3
  | [], _, _ => by simp [asciiScan]
  | line :: rest, tri, htri => by
    intro t ht
    rw [asciiScan_cons] at ht
    by_cases hv : pyStartsWith (pyStrip line) vertexTok = true
    · rw [hv, if_pos (Eq.refl true)] at ht
      by_cases h4 : (splitFields (pyStrip line)).length = 4
      · rw [if_pos h4] at ht
        cases hp : parseVertex parseF (splitFields (pyStrip line)) with
        | none =>
          rw [hp] at ht
          exact asciiScan_shape parseF rest [] (by simp) t ht
        | some v =>
          rw [hp] at ht
          dsimp only at ht
          have hvlen : v.length = 3 := parseVertex_length parseF _ v hp
          have htri2 : ∀ w ∈ tri ++ [v], w.length = 3 := by
            intro w hw
            rcases List.mem_append.mp hw with hw | hw
            · exact htri w hw
            · rw [List.mem_singleton.mp hw]
              exact hvlen
          by_cases hlen : (tri ++ [v]).length = 3
          · rw [if_pos hlen] at ht
            rcases List.mem_cons.mp ht with rfl | ht
            · exact ⟨hlen, htri2⟩
            · exact asciiScan_shape parseF rest [] (by simp) t ht
          · rw [if_neg hlen] at ht
            exact asciiScan_shape parseF rest (tri ++ [v]) htri2 t ht
      · rw [if_neg h4] at ht
        exact asciiScan_shape parseF rest tri htri t ht
    · rw [Bool.not_eq_true] at hv
      rw [hv, if_neg (by simp)] at ht
      exact asciiScan_shape parseF rest tri htri t ht

/-- C5: parse_stl is a total function of the input buffer: on every byte
buffer (adversarial ones included) it returns either the failure value
`none` or a triangle array in which every triangle has exactly 3 vertices of
3 coordinates; no other outcome (exception, crash) exists. -/
theorem parse_stl_total {F : Type} (decodeText : List ℕ → Option (List String))
    (parseF : String → Option F) (f32 : List ℕ → F) (data : List ℕ) :
    parse_stl decodeText parseF f32 data = none ∨
    ∃ ts, parse_stl decodeText parseF f32 data = some ts ∧
      ∀ t ∈ ts, t.length = 3 ∧ ∀ v ∈ t, v.length = 3 := by
  have hbin : parse_binary_stl f32 data = none ∨
      ∃ ts, parse_binary_stl f32 data = some ts ∧
        ∀ t ∈ ts, t.length = 3 ∧ ∀ v ∈ t, v.length = 3 := by
    by_cases h84 : 84 ≤ data.length
    · right
      exact ⟨_, parse_binary_stl_eq f32 data h84,
        fun t ht => readTris_shape f32 _ _ t ht⟩
    · left
      exact parse_binary_stl_none_of_short f32 data (by omega)
  unfold parse_stl
  by_cases h5 : data.take 5 = solidBytes
  · rw [if_pos h5]
    unfold parse_ascii_stl
    cases hdec : decodeText data with
    | none => exact hbin
    | some lines =>
      dsimp only
      by_cases hempty : (asciiScan parseF lines []).isEmpty
      · rw [hempty]
        left
        rfl
      · rw [Bool.not_eq_true] at hempty
        rw [hempty]
        right
        refine ⟨asciiScan parseF lines [], rfl, ?_⟩
        exact fun t ht => asciiScan_shape parseF lines [] (by simp) t ht
  · rw [if_neg h5]
    exact hbin

end STLParser

namespace PathFinder

theorem dist2_nonneg (a b : ℚ × ℚ × ℚ) : 0 ≤ dist2 a b := by
  unfold dist2
  nlinarith [mul_self_nonneg (a.1 - b.1), mul_self_nonneg (a.2.1 - b.2.1),
    mul_self_nonneg (a.2.2 - b.2.2)]

/-- Full characterization of the argmin scan: either the incoming best stands
(it is no larger than everything in `ds`), or the result points at the first
strictly better position, which holds the global minimum and is strictly
smaller than every earlier entry of `ds`. -/
theorem argminAux_spec :
    ∀ (ds : List ℚ) (bv : ℚ) (idx b : ℕ),
      (argminAux ds bv idx b = b ∧ ∀ k v, ds.get? k = some v → bv ≤ v) ∨
      (∃ k dk, ds.get? k = some dk ∧ argminAux ds bv idx b = idx + k ∧ dk < bv ∧
        (∀ j v, ds.get? j = some v → dk ≤ v) ∧
        (∀ j v, j < k → ds.get? j = some v → dk < v))
  | [], bv, idx, b => by
    left
    exact ⟨rfl, fun k v hv => by simp at hv⟩
  | d :: ds, bv, idx, b => by
    unfold argminAux
    by_cases hd : d < bv
    · rw [if_pos hd]
      rcases argminAux_spec ds d (idx + 1) idx with ⟨hres, hmin⟩ |
        ⟨k, dk, hget, hres, hlt, hmin, hearl⟩
      · right
        refine ⟨0, d, by simp, by simpa using hres, hd, ?_, ?_⟩
        · intro j v hv
          match j with
          | 0 =>
            simp at hv
            subst hv
            exact le_refl d
          | j + 1 => exact hmin j v (by simpa using hv)
        · intro j v hj hv
          omega
      · right
        refine ⟨k + 1, dk, by simpa using hget, by rw [hres]; omega, by linarith, ?_, ?_⟩
        · intro j v hv
          match j with
          | 0 =>
            simp at hv
            subst hv
            linarith
          | j + 1 => exact hmin j v (by simpa using hv)
        · intro j v hj hv
          match j with
          | 0 =>
            simp at hv
            subst hv
            exact hlt
          | j + 1 => exact hearl j v (by omega) (by simpa using hv)
    · rw [if_neg hd]
      push_neg at hd
      rcases argminAux_spec ds bv (idx + 1) b with ⟨hres, hmin⟩ |
        ⟨k, dk, hget, hres, hlt, hmin, hearl⟩
      · left
        refine ⟨hres, ?_⟩
        intro j v hv
        match j with
        | 0 =>
          simp at hv
          subst hv
          exact hd
        | j + 1 => exact hmin j v (by simpa using hv)
      · right
        refine ⟨k + 1, dk, by simpa using hget, by rw [hres]; omega, hlt, ?_, ?_⟩
        · intro j v hv
          match j with
          | 0 =>
            simp at hv
            subst hv
            linarith
          | j + 1 => exact hmin j v (by simpa using hv)
        · intro j v hj hv
          match j with
          | 0 =>
            simp at hv
            subst hv
            linarith
          | j + 1 => exact hearl j v (by omega) (by simpa using hv)

end PathFinder

namespace PathFinder

/-- C8: on a mesh with at least one face, the locator returns the index of
the face whose centroid is closest to the query point in Euclidean distance
(equivalently in squared distance, the square root being monotone), and among
several centroids at exactly the same minimal Euclidean distance it returns
the lowest face index. -/
theorem get_closest_face_correct (point : ℚ × ℚ × ℚ)
    (centers : List (ℚ × ℚ × ℚ)) (h : centers ≠ []) :
    ∃ i ci, get_closest_face_to_point point centers = some i ∧
      centers.get? i = some ci ∧
      (∀ j cj, centers.get? j = some cj →
        dist2 ci point ≤ dist2 cj point ∧
        Real.sqrt ((dist2 ci point : ℚ) : ℝ) ≤ Real.sqrt ((dist2 cj point : ℚ) : ℝ)) ∧
      (∀ j cj, centers.get? j = some cj →
        Real.sqrt ((dist2 cj point : ℚ) : ℝ) = Real.sqrt ((dist2 ci point : ℚ) : ℝ) →
        i ≤ j) := by
  obtain ⟨c, cs, rfl⟩ : ∃ c cs, centers = c :: cs := by
    cases centers with
    | nil => exact absurd rfl h
    | cons c cs => exact ⟨c, cs, rfl⟩
  have hsq : ∀ a b : ℚ × ℚ × ℚ, dist2 a point ≤ dist2 b point →
      Real.sqrt ((dist2 a point : ℚ) : ℝ) ≤ Real.sqrt ((dist2 b point : ℚ) : ℝ) := by
    intro a b hab
    exact Real.sqrt_le_sqrt (by exact_mod_cast hab)
  have hsqinj : ∀ a b : ℚ × ℚ × ℚ,
      Real.sqrt ((dist2 a point : ℚ) : ℝ) = Real.sqrt ((dist2 b point : ℚ) : ℝ) →
      dist2 a point = dist2 b point := by
    intro a b hab
    have h1 : (0 : ℝ) ≤ ((dist2 a point : ℚ) : ℝ) := by
      exact_mod_cast dist2_nonneg a point
    have h2 : (0 : ℝ) ≤ ((dist2 b point : ℚ) : ℝ) := by
      exact_mod_cast dist2_nonneg b point
    have := (Real.sqrt_inj h1 h2).mp hab
    exact_mod_cast this
  have heq : get_closest_face_to_point point (c :: cs) =
      some (argminAux (cs.map fun x => dist2 x point) (dist2 c point) 1 0) := rfl
  rcases argminAux_spec (cs.map fun x => dist2 x point) (dist2 c point) 1 0 with
    ⟨hres, hmin⟩ | ⟨k, dk, hget, hres, hlt, hmin, hearl⟩
  · refine ⟨0, c, by rw [heq, hres], by simp, ?_, ?_⟩
    · intro j cj hj
      have hle : dist2 c point ≤ dist2 cj point := by
        match j with
        | 0 =>
          simp at hj
          subst hj
          exact le_refl _
        | j + 1 =>
          simp only [List.get?_cons_succ] at hj
          refine hmin j (dist2 cj point) ?_
          rw [List.get?_map, hj]
          rfl
      exact ⟨hle, hsq _ _ hle⟩
    · intro j cj hj hsqe
      exact Nat.zero_le j
  · obtain ⟨ck, hck, hdk⟩ : ∃ ck, cs.get? k = some ck ∧ dist2 ck point = dk := by
      rw [List.get?_map] at hget
      cases hc : cs.get? k with
      | none => rw [hc] at hget; simp at hget
      | some ck =>
        rw [hc] at hget
        simp at hget
        exact ⟨ck, rfl, hget⟩
    have hminall : ∀ j cj, (c :: cs).get? j = some cj → dk ≤ dist2 cj point := by
      intro j cj hj
      match j with
      | 0 =>
        simp at hj
        subst hj
        exact le_of_lt hlt
      | j + 1 =>
        simp only [List.get?_cons_succ] at hj
        refine hmin j (dist2 cj point) ?_
        rw [List.get?_map, hj]
        rfl
    refine ⟨1 + k, ck, by rw [heq, hres], ?_, ?_, ?_⟩
    · rw [show 1 + k = k + 1 by omega]
      simpa using hck
    · intro j cj hj
      have hle : dist2 ck point ≤ dist2 cj point := by
        rw [hdk]
        exact hminall j cj hj
      exact ⟨hle, hsq _ _ hle⟩
    · intro j cj hj hsqe
      have hje : dist2 cj point = dist2 ck point := hsqinj cj ck hsqe
      match j with
      | 0 =>
        simp at hj
        subst hj
        rw [hdk] at hje
        exact absurd hje (ne_of_gt hlt)
      | j + 1 =>
        simp only [List.get?_cons_succ] at hj
        by_contra hcon
        push_neg at hcon
        have hjk : j < k := by omega
        have := hearl j (dist2 cj point) hjk (by rw [List.get?_map, hj]; rfl)
        rw [hje, hdk] at this
        exact absurd this (lt_irrefl dk)

/-- Concrete centers list with a tie between positions 1 and 2. -/
def centers3 : List (ℚ × ℚ × ℚ) := [(3, 0, 0), (1, 0, 0), (1, 0, 0)]

theorem get_closest_face_correct_witness :
    centers3 ≠ [] ∧
    ∃ i ci, get_closest_face_to_point (0, 0, 0) centers3 = some i ∧
      centers3.get? i = some ci ∧
      (∀ j cj, centers3.get? j = some cj →
        dist2 ci (0, 0, 0) ≤ dist2 cj (0, 0, 0) ∧
        Real.sqrt ((dist2 ci (0, 0, 0) : ℚ) : ℝ) ≤
          Real.sqrt ((dist2 cj (0, 0, 0) : ℚ) : ℝ)) ∧
      (∀ j cj, centers3.get? j = some cj →
        Real.sqrt ((dist2 cj (0, 0, 0) : ℚ) : ℝ) =
          Real.sqrt ((dist2 ci (0, 0, 0) : ℚ) : ℝ) →
        i ≤ j) :=
  ⟨by decide, get_closest_face_correct (0, 0, 0) centers3 (by decide)⟩

end PathFinder

namespace PathFinder

theorem walkFrom_length_pos (g : List (List ℕ)) (s t : ℕ) (q : List ℕ)
    (h : walkFrom g s t q) : 1 ≤ q.length := by
  rcases h with ⟨h1, -, -⟩
  cases q with
  | nil => simp at h1
  | cons a q => simp

theorem walkFrom_singleton (g : List (List ℕ)) (s : ℕ) : walkFrom g s s [s] :=
  ⟨rfl, rfl, List.chain'_singleton s⟩

theorem walkFrom_eq_of_length_one (g : List (List ℕ)) (s t : ℕ) (q : List ℕ)
    (h : walkFrom g s t q) (hlen : q.length = 1) : s = t := by
  rcases h with ⟨h1, h2, -⟩
  match q, hlen with
  | [a], _ =>
    simp at h1 h2
    omega

theorem walkFrom_length_two (g : List (List ℕ)) (s t : ℕ) (q : List ℕ)
    (h : walkFrom g s t q) (hne : s ≠ t) : 2 ≤ q.length := by
  have h1 := walkFrom_length_pos g s t q h
  by_contra hc
  push_neg at hc
  exact hne (walkFrom_eq_of_length_one g s t q h (by omega))

theorem walk_snoc (g : List (List ℕ)) (s c n : ℕ) (p : List ℕ)
    (hw : walkFrom g s c p) (hn : n ∈ neighbors g c) :
    walkFrom g s n (p ++ [n]) := by
  rcases hw with ⟨h1, h2, h3⟩
  refine ⟨?_, List.getLast?_concat p, ?_⟩
  · cases p with
    | nil => simp at h1
    | cons a p => simpa using h1
  · rw [List.chain'_append]
    refine ⟨h3, List.chain'_singleton n, ?_⟩
    intro x hx y hy
    simp at hy
    rw [h2] at hx
    simp at hx
    rw [← hx, ← hy]
    exact hn

theorem walk_unsnoc (g : List (List ℕ)) (s u : ℕ) (q : List ℕ)
    (hw : walkFrom g s u q) (hlen : 2 ≤ q.length) :
    ∃ q' w, q = q' ++ [u] ∧ walkFrom g s w q' ∧ u ∈ neighbors g w ∧
      q'.length + 1 = q.length := by
  rcases hw with ⟨h1, h2, h3⟩
  have hq : q ≠ [] := by
    cases q with
    | nil => simp at h1
    | cons a q => simp
  have hdec : q.dropLast ++ [q.getLast hq] = q := List.dropLast_append_getLast hq
  have hu : q.getLast hq = u := by
    have := List.getLast?_eq_getLast q hq
    rw [h2] at this
    exact (Option.some.injEq _ _).mp this.symm
  have hlen' : q.dropLast.length + 1 = q.length := by
    rw [List.length_dropLast]
    omega
  have hne : q.dropLast ≠ [] := by
    intro hc
    rw [hc] at hlen'
    simp at hlen'
    omega
  have hw' : q.dropLast.getLast hne ∈ q.dropLast := List.getLast_mem hne
  refine ⟨q.dropLast, q.dropLast.getLast hne, by rw [← hu, hdec], ⟨?_, ?_, ?_⟩, ?_, hlen'⟩
  · rw [← hdec] at h1
    cases hd : q.dropLast with
    | nil => exact absurd hd hne
    | cons a q' =>
      rw [hd] at h1
      simpa using h1
  · exact List.getLast?_eq_getLast _ hne
  · have := h3
    rw [← hdec, List.chain'_append] at this
    exact this.1
  · have := h3
    rw [← hdec, List.chain'_append] at this
    have h4 := this.2.2
    refine ?_
    have := h4 (q.dropLast.getLast hne) ?_ u ?_
    · exact this
    · exact List.getLast?_eq_getLast _ hne
    · rw [hu]
      rfl

theorem mem_foldr_insert_inner :
    ∀ (l : List ℕ) (acc : Finset ℕ) (x : ℕ), x ∈ l ∨ x ∈ acc →
      x ∈ l.foldr (fun a b => insert a b) acc
  | [], acc, x, h => by
    rcases h with h | h
    · simp at h
    · simpa using h
  | a :: l, acc, x, h => by
    simp only [List.foldr_cons, Finset.mem_insert]
    rcases h with h | h
    · rcases List.mem_cons.mp h with rfl | h
      · exact Or.inl rfl
      · exact Or.inr (mem_foldr_insert_inner l acc x (Or.inl h))
    · exact Or.inr (mem_foldr_insert_inner l acc x (Or.inr h))

theorem mem_foldr_insert :
    ∀ (g : List (List ℕ)) (acc : Finset ℕ) (x : ℕ),
      (∃ l ∈ g, x ∈ l) ∨ x ∈ acc →
      x ∈ g.foldr (fun l a => l.foldr (fun b c => insert b c) a) acc
  | [], acc, x, h => by
    rcases h with ⟨l, hl, -⟩ | h
    · simp at hl
    · simpa using h
  | l :: g, acc, x, h => by
    simp only [List.foldr_cons]
    refine mem_foldr_insert_inner l _ x ?_
    rcases h with ⟨l', hl', hx⟩ | h
    · rcases List.mem_cons.mp hl' with rfl | hl'
      · exact Or.inl hx
      · exact Or.inr (mem_foldr_insert g acc x (Or.inl ⟨l', hl', hx⟩))
    · exact Or.inr (mem_foldr_insert g acc x (Or.inr h))

theorem mem_allNodes_self (g : List (List ℕ)) (s : ℕ) : s ∈ allNodes g s :=
  Finset.mem_insert_self s _

theorem neighbors_subset_allNodes (g : List (List ℕ)) (s c : ℕ) :
    ∀ n ∈ neighbors g c, n ∈ allNodes g s := by
  intro n hn
  unfold neighbors List.getD at hn
  cases hc : g.get? c with
  | none =>
    rw [hc] at hn
    simp at hn
  | some l =>
    rw [hc] at hn
    simp at hn
    unfold allNodes
    exact Finset.mem_insert_of_mem
      (mem_foldr_insert g ∅ n (Or.inl ⟨l, List.get?_mem hc, hn⟩))

end PathFinder

namespace PathFinder

theorem scanNeighbors_none_iff (e : ℕ) (p : List ℕ) :
    ∀ (ns : List ℕ) (vis : Finset ℕ),
      scanNeighbors e p ns vis = none ↔ e ∈ ns
  | [], vis => by simp [scanNeighbors]
  | n :: ns, vis => by
    unfold scanNeighbors
    by_cases hn : n = e
    · subst hn
      simp
    · rw [if_neg hn]
      by_cases hv : n ∈ vis
      · rw [if_pos hv, scanNeighbors_none_iff e p ns vis]
        simp [List.mem_cons]
        intro h
        exact absurd h.symm hn
      · rw [if_neg hv]
        cases hrec : scanNeighbors e p ns (insert n vis) with
        | none =>
          simp only [true_iff]
          have := (scanNeighbors_none_iff e p ns (insert n vis)).mp hrec
          exact List.mem_cons_of_mem n this
        | some r =>
          constructor
          · intro hcontra
            exact Option.noConfusion hcontra
          · intro hmem
            rcases List.mem_cons.mp hmem with h | h
            · exact absurd h.symm hn
            · rw [(scanNeighbors_none_iff e p ns (insert n vis)).mpr h] at hrec
              exact Option.noConfusion hrec

/-- Everything established by a completed neighbor scan. -/
structure ScanOK (e : ℕ) (p : List ℕ) (ns : List ℕ) (vis : Finset ℕ)
    (news : List (ℕ × List ℕ)) (vis2 : Finset ℕ) : Prop where
  mem_vis2 : ∀ x, x ∈ vis2 ↔ x ∈ vis ∨ x ∈ news.map Prod.fst
  entries : ∀ ent ∈ news, ent.2 = p ++ [ent.1] ∧ ent.1 ∈ ns ∧ ent.1 ∉ vis ∧ ent.1 ≠ e
  fst_nodup : (news.map Prod.fst).Nodup
  card2 : vis2.card = vis.card + news.length
  covered : ∀ n ∈ ns, n ≠ e → n ∈ vis2

theorem scanNeighbors_some (e : ℕ) (p : List ℕ) :
    ∀ (ns : List ℕ) (vis : Finset ℕ) (news : List (ℕ × List ℕ)) (vis2 : Finset ℕ),
      scanNeighbors e p ns vis = some (news, vis2) → ScanOK e p ns vis news vis2
  | [], vis, news, vis2, h => by
    unfold scanNeighbors at h
    simp at h
    obtain ⟨rfl, rfl⟩ := h
    exact ⟨fun x => by simp, by simp, by simp, by simp, by simp⟩
  | n :: ns, vis, news, vis2, h => by
    unfold scanNeighbors at h
    by_cases hn : n = e
    · rw [if_pos hn] at h
      exact Option.noConfusion h
    · rw [if_neg hn] at h
      by_cases hv : n ∈ vis
      · rw [if_pos hv] at h
        have ih := scanNeighbors_some e p ns vis news vis2 h
        refine ⟨ih.mem_vis2, ?_, ih.fst_nodup, ih.card2, ?_⟩
        · intro ent hent
          obtain ⟨h1, h2, h3, h4⟩ := ih.entries ent hent
          exact ⟨h1, List.mem_cons_of_mem n h2, h3, h4⟩
        · intro m hm hme
          rcases List.mem_cons.mp hm with rfl | hm
          · exact (ih.mem_vis2 m).mpr (Or.inl hv)
          · exact ih.covered m hm hme
      · rw [if_neg hv] at h
        cases hrec : scanNeighbors e p ns (insert n vis) with
        | none =>
          rw [hrec] at h
          exact Option.noConfusion h
        | some r =>
          rw [hrec] at h
          obtain ⟨news', vis2'⟩ := r
          simp at h
          obtain ⟨rfl, rfl⟩ := h
          have ih := scanNeighbors_some e p ns (insert n vis) news' vis2' hrec
          have hnfst : n ∉ news'.map Prod.fst := by
            intro hc
            obtain ⟨ent, hent, hfst⟩ := List.mem_map.mp hc
            obtain ⟨-, -, h3, -⟩ := ih.entries ent hent
            rw [hfst] at h3
            exact h3 (Finset.mem_insert_self n vis)
          refine ⟨?_, ?_, ?_, ?_, ?_⟩
          · intro x
            rw [ih.mem_vis2 x]
            simp [Finset.mem_insert]
            tauto
          · intro ent hent
            rcases List.mem_cons.mp hent with rfl | hent
            · exact ⟨rfl, List.mem_cons_self n ns, hv, hn⟩
            · obtain ⟨h1, h2, h3, h4⟩ := ih.entries ent hent
              refine ⟨h1, List.mem_cons_of_mem n h2, fun hc => h3 ?_, h4⟩
              exact Finset.mem_insert_of_mem hc
          · simp only [List.map_cons, List.nodup_cons]
            exact ⟨hnfst, ih.fst_nodup⟩
          · rw [ih.card2, Finset.card_insert_of_not_mem hv]
            simp
            omega
          · intro m hm hme
            rcases List.mem_cons.mp hm with rfl | hm
            · exact (ih.mem_vis2 m).mpr (Or.inl (Finset.mem_insert_self m vis))
            · exact ih.covered m hm hme

/-- From a visited set closed under neighbors and containing `s` but not `e`,
no walk leads from `s` out of the set; in particular none reaches `e`. -/
theorem closure_no_walk (g : List (List ℕ)) (s e : ℕ) (vis : Finset ℕ)
    (hs : s ∈ vis) (he : e ∉ vis)
    (hcl : ∀ v ∈ vis, ∀ n ∈ neighbors g v, n ∈ vis) :
    ∀ q, ¬ walkFrom g s e q := by
  have key : ∀ (q : List ℕ) (a t : ℕ), q.head? = some a → q.getLast? = some t →
      List.Chain' (fun x y => y ∈ neighbors g x) q → a ∈ vis → t ∈ vis := by
    intro q
    induction q with
    | nil => intro a t h1 _ _ _; simp at h1
    | cons b q ih =>
      intro a t h1 h2 h3 ha
      simp at h1
      subst h1
      cases q with
      | nil =>
        simp at h2
        rw [← h2]
        exact ha
      | cons c q =>
        have hc : c ∈ neighbors g b := (List.chain'_cons.mp h3).1
        refine ih c t rfl ?_ (List.chain'_cons.mp h3).2 (hcl b ha c hc)
        rw [← h2]
        rfl
  intro q hw
  rcases hw with ⟨h1, h2, h3⟩
  exact he (key q s e h1 h2 h3 hs)

end PathFinder

namespace PathFinder

theorem mem_of_getLast? (l : List ℕ) (a : ℕ) (h : l.getLast? = some a) : a ∈ l := by
  have hne : l ≠ [] := by
    intro hc
    rw [hc] at h
    simp at h
  rw [List.getLast?_eq_getLast l hne] at h
  rw [← (Option.some.injEq _ _).mp h]
  exact List.getLast_mem hne

theorem sorted_of_const :
    ∀ (L : List ℕ) (k : ℕ), (∀ x ∈ L, x = k) → List.Sorted (· ≤ ·) L
  | [], _, _ => List.sorted_nil
  | a :: L, k, h => by
    rw [List.sorted_cons]
    refine ⟨?_, sorted_of_const L k fun x hx => h x (List.mem_cons_of_mem a hx)⟩
    intro b hb
    rw [h a (List.mem_cons_self a L), h b (List.mem_cons_of_mem a hb)]

/-- Wellformedness of one queue entry (node, path): the stored path is a
duplicate-free shortest walk from the start to the node, through visited
nodes only. -/
structure QEntryOK (g : List (List ℕ)) (s : ℕ) (vis : Finset ℕ)
    (ent : ℕ × List ℕ) : Prop where
  walk : walkFrom g s ent.1 ent.2
  nodup : ent.2.Nodup
  subVis : ∀ x ∈ ent.2, x ∈ vis
  minimal : ∀ q, walkFrom g s ent.1 q → ent.2.length ≤ q.length

theorem QEntryOK.mono (g : List (List ℕ)) (s : ℕ) (vis vis2 : Finset ℕ)
    (ent : ℕ × List ℕ) (h : QEntryOK g s vis ent) (hsub : vis ⊆ vis2) :
    QEntryOK g s vis2 ent :=
  ⟨h.walk, h.nodup, fun x hx => hsub (h.subVis x hx), h.minimal⟩

/-- The invariant of the `while queue:` loop of bfs_path (for s different
from e).  Queue paths are shortest walks with lengths nondecreasing along the
queue and spanning at most two consecutive values; fully processed nodes have
all neighbors visited and none equal to e; unvisited nodes lie strictly
farther from the start than the queue front. -/
structure LoopInv (g : List (List ℕ)) (s e : ℕ)
    (queue : List (ℕ × List ℕ)) (vis : Finset ℕ) : Prop where
  s_mem : s ∈ vis
  e_not_mem : e ∉ vis
  vis_sub : vis ⊆ allNodes g s
  entries : ∀ ent ∈ queue, QEntryOK g s vis ent
  sorted : List.Sorted (· ≤ ·) (queue.map fun ent => ent.2.length)
  spread : ∀ a ∈ (queue.map fun ent => ent.2.length),
    ∀ b ∈ (queue.map fun ent => ent.2.length), a ≤ b + 1
  fst_nodup : (queue.map Prod.fst).Nodup
  closure : ∀ v ∈ vis, v ∉ queue.map Prod.fst →
    ∀ n ∈ neighbors g v, n ≠ e ∧ n ∈ vis
  frontier : ∀ hd ∈ queue.head?, ∀ u, u ∉ vis →
    ∀ q, walkFrom g s u q → hd.2.length + 1 ≤ q.length

end PathFinder

namespace PathFinder

/-- One loop iteration preserves the invariant: popping the front entry
(c, p) and appending the freshly discovered neighbor entries. -/
theorem LoopInv.step (g : List (List ℕ)) (s e : ℕ) (c : ℕ) (p : List ℕ)
    (rest news : List (ℕ × List ℕ)) (vis vis2 : Finset ℕ)
    (inv : LoopInv g s e ((c, p) :: rest) vis)
    (hscan : scanNeighbors e p (neighbors g c) vis = some (news, vis2)) :
    LoopInv g s e (rest ++ news) vis2 ∧ vis2.card = vis.card + news.length := by
  have SOK := scanNeighbors_some e p (neighbors g c) vis news vis2 hscan
  have hEnotNs : e ∉ neighbors g c := by
    intro hmem
    rw [(scanNeighbors_none_iff e p (neighbors g c) vis).mpr hmem] at hscan
    exact Option.noConfusion hscan
  have hQc : QEntryOK g s vis (c, p) := inv.entries (c, p) (List.mem_cons_self _ _)
  have hrest_entries : ∀ ent ∈ rest, QEntryOK g s vis ent :=
    fun ent hent => inv.entries ent (List.mem_cons_of_mem _ hent)
  have hsub : vis ⊆ vis2 := fun x hx => (SOK.mem_vis2 x).mpr (Or.inl hx)
  have hplen : 1 ≤ p.length := walkFrom_length_pos g s c p hQc.walk
  have hfront : ∀ u, u ∉ vis → ∀ q, walkFrom g s u q → p.length + 1 ≤ q.length :=
    fun u hu q hq => inv.frontier (c, p) rfl u hu q hq
  have hnews_len : ∀ ent ∈ news, ent.2.length = p.length + 1 := by
    intro ent hent
    rw [(SOK.entries ent hent).1]
    simp
  have hrest_node_vis : ∀ ent ∈ rest, ent.1 ∈ vis := by
    intro ent hent
    exact (hrest_entries ent hent).subVis ent.1
      (mem_of_getLast? ent.2 ent.1 (hrest_entries ent hent).walk.2.1)
  have hnews_node_notvis : ∀ x ∈ news.map Prod.fst, x ∉ vis := by
    intro x hx
    obtain ⟨ent, hent, rfl⟩ := List.mem_map.mp hx
    exact (SOK.entries ent hent).2.2.1
  have hold_lens : ((c, p) :: rest).map (fun ent => ent.2.length) =
      p.length :: rest.map (fun ent => ent.2.length) := by simp
  have hrest_lens_lb : ∀ x ∈ rest.map (fun ent => ent.2.length), p.length ≤ x := by
    have := inv.sorted
    rw [hold_lens, List.sorted_cons] at this
    exact this.1
  have hrest_lens_ub : ∀ x ∈ rest.map (fun ent => ent.2.length),
      x ≤ p.length + 1 := by
    intro x hx
    refine inv.spread x ?_ p.length ?_
    · rw [hold_lens]
      exact List.mem_cons_of_mem _ hx
    · rw [hold_lens]
      exact List.mem_cons_self _ _
  have hbound : ∀ x ∈ (rest ++ news).map (fun ent => ent.2.length),
      p.length ≤ x ∧ x ≤ p.length + 1 := by
    intro x hx
    rw [List.map_append] at hx
    rcases List.mem_append.mp hx with hx | hx
    · exact ⟨hrest_lens_lb x hx, hrest_lens_ub x hx⟩
    · obtain ⟨ent, hent, rfl⟩ := List.mem_map.mp hx
      rw [hnews_len ent hent]
      omega
  refine ⟨⟨?_, ?_, ?_, ?_, ?_, ?_, ?_, ?_, ?_⟩, SOK.card2⟩
  · exact hsub inv.s_mem
  · intro hc
    rcases (SOK.mem_vis2 e).mp hc with h | h
    · exact inv.e_not_mem h
    · obtain ⟨ent, hent, heq⟩ := List.mem_map.mp h
      exact (SOK.entries ent hent).2.2.2 heq
  · intro x hx
    rcases (SOK.mem_vis2 x).mp hx with h | h
    · exact inv.vis_sub h
    · obtain ⟨ent, hent, rfl⟩ := List.mem_map.mp h
      exact neighbors_subset_allNodes g s c ent.1 (SOK.entries ent hent).2.1
  · intro ent hent
    rcases List.mem_append.mp hent with hent | hent
    · exact QEntryOK.mono g s vis vis2 ent (hrest_entries ent hent) hsub
    · obtain ⟨hp2, hmem, hnotvis, hne⟩ := SOK.entries ent hent
      refine ⟨?_, ?_, ?_, ?_⟩
      · rw [hp2]
        exact walk_snoc g s c ent.1 p hQc.walk hmem
      · rw [hp2]
        rw [List.nodup_append]
        refine ⟨hQc.nodup, List.nodup_singleton _, ?_⟩
        intro a ha hb
        rw [List.mem_singleton.mp hb] at ha
        exact hnotvis (hQc.subVis ent.1 ha)
      · intro x hx
        rw [hp2] at hx
        rcases List.mem_append.mp hx with hx | hx
        · exact hsub (hQc.subVis x hx)
        · rw [List.mem_singleton.mp hx]
          exact (SOK.mem_vis2 ent.1).mpr
            (Or.inr (List.mem_map.mpr ⟨ent, hent, rfl⟩))
      · intro q hq
        have := hfront ent.1 hnotvis q hq
        rw [hp2]
        simp
        omega
  · rw [List.map_append]
    show List.Pairwise (· ≤ ·) (rest.map (fun ent => ent.2.length) ++
      news.map (fun ent => ent.2.length))
    rw [List.pairwise_append]
    refine ⟨?_, ?_, ?_⟩
    · have := inv.sorted
      rw [hold_lens, List.sorted_cons] at this
      exact this.2
    · exact sorted_of_const _ (p.length + 1) fun x hx => by
        obtain ⟨ent, hent, rfl⟩ := List.mem_map.mp hx
        exact hnews_len ent hent
    · intro x hx y hy
      obtain ⟨ent, hent, rfl⟩ := List.mem_map.mp hy
      rw [hnews_len ent hent]
      exact hrest_lens_ub x hx
  · intro a ha b hb
    have h1 := hbound a ha
    have h2 := hbound b hb
    omega
  · rw [List.map_append]
    rw [List.nodup_append]
    refine ⟨?_, SOK.fst_nodup, ?_⟩
    · have := inv.fst_nodup
      simp only [List.map_cons] at this
      exact (List.nodup_cons.mp this).2
    · intro a ha hb
      exact hnews_node_notvis a hb (by
        obtain ⟨ent, hent, rfl⟩ := List.mem_map.mp ha
        exact hrest_node_vis ent hent)
  · intro v hv hnotq n hn
    rw [List.map_append] at hnotq
    have hvrest : v ∉ rest.map Prod.fst := fun hc => hnotq (List.mem_append.mpr (Or.inl hc))
    have hvnews : v ∉ news.map Prod.fst := fun hc => hnotq (List.mem_append.mpr (Or.inr hc))
    rcases (SOK.mem_vis2 v).mp hv with hvv | hvnew
    · by_cases hvc : v = c
      · subst hvc
        have hne : n ≠ e := fun he' => hEnotNs (he' ▸ hn)
        exact ⟨hne, SOK.covered n hn hne⟩
      · have hvold : v ∉ ((c, p) :: rest).map Prod.fst := by
          simp only [List.map_cons]
          rw [List.mem_cons]
          push_neg
          exact ⟨hvc, hvrest⟩
        obtain ⟨hne, hnv⟩ := inv.closure v hvv hvold n hn
        exact ⟨hne, hsub hnv⟩
    · exact absurd hvnew hvnews
  · intro hd hhd u hu q hq
    have hu2 : u ∉ vis := fun h => hu (hsub h)
    have hold : p.length + 1 ≤ q.length := hfront u hu2 q hq
    have hhd_mem : hd ∈ rest ++ news := List.mem_of_mem_head? hhd
    have hdlen_ub : hd.2.length ≤ p.length + 1 :=
      (hbound hd.2.length (List.mem_map.mpr ⟨hd, hhd_mem, rfl⟩)).2
    by_cases hcase : hd.2.length ≤ p.length
    · omega
    · have hdlen : hd.2.length = p.length + 1 := by omega
      by_contra hqs
      push_neg at hqs
      have hqlen : q.length = p.length + 1 := by omega
      have hq2 : 2 ≤ q.length := by omega
      obtain ⟨q', w, hqeq, hw', huw, hlen'⟩ := walk_unsnoc g s u q hq hq2
      have hq'len : q'.length = p.length := by omega
      by_cases hwvis : w ∈ vis
      · by_cases hwc : w = c
        · subst hwc
          have hune : u ≠ e := fun he' => hEnotNs (he' ▸ huw)
          exact hu (SOK.covered u huw hune)
        · by_cases hwrest : w ∈ rest.map Prod.fst
          · obtain ⟨ent, hent, hentw⟩ := List.mem_map.mp hwrest
            have hmin := (hrest_entries ent hent).minimal q' (by rw [hentw]; exact hw')
            have hentlen : p.length + 1 ≤ ent.2.length := by
              cases hr : rest with
              | nil =>
                rw [hr] at hent
                simp at hent
              | cons r0 rest' =>
                have hhd_eq : hd = r0 := by
                  rw [hr] at hhd
                  simp at hhd
                  exact hhd.symm
                have hr0len : r0.2.length = p.length + 1 := by
                  rw [← hhd_eq]
                  exact hdlen
                rw [hr] at hent
                rcases List.mem_cons.mp hent with rfl | hent'
                · omega
                · have hsorted := inv.sorted
                  rw [hold_lens, hr, List.sorted_cons] at hsorted
                  have := hsorted.2
                  simp only [List.map_cons, List.sorted_cons] at this
                  have hle := this.1 ent.2.length
                    (List.mem_map.mpr ⟨ent, hent', rfl⟩)
                  omega
            omega
          · have hwold : w ∉ ((c, p) :: rest).map Prod.fst := by
              simp only [List.map_cons]
              rw [List.mem_cons]
              push_neg
              exact ⟨hwc, hwrest⟩
            obtain ⟨-, hnv⟩ := inv.closure w hwvis hwold u huw
            exact hu2 hnv
      · have := hfront w hwvis q' hw'
        omega

end PathFinder

namespace PathFinder

/-- Full specification of the BFS loop, by induction on the fuel: under the
invariant and with fuel at least the loop's decreasing measure, a returned
path is a duplicate-free shortest walk from s to e, and a `none` means no
walk from s to e exists. -/
theorem bfsLoop_spec (g : List (List ℕ)) (s e : ℕ) :
    ∀ (fuel : ℕ) (queue : List (ℕ × List ℕ)) (vis : Finset ℕ),
      LoopInv g s e queue vis →
      (allNodes g s).card + 1 - vis.card + queue.length ≤ fuel →
      (∀ p, bfsLoop g e fuel queue vis = some p →
        walkFrom g s e p ∧ p.Nodup ∧
        ∀ q, walkFrom g s e q → p.length ≤ q.length) ∧
      (bfsLoop g e fuel queue vis = none → ∀ q, ¬ walkFrom g s e q)
  | fuel, [], vis, inv, hmeas => by
    have hnone : bfsLoop g e fuel [] vis = none := by
      cases fuel <;> rfl
    refine ⟨fun p hp => ?_, fun _ => ?_⟩
    · rw [hnone] at hp
      exact Option.noConfusion hp
    · refine closure_no_walk g s e vis inv.s_mem inv.e_not_mem ?_
      intro v hv n hn
      exact (inv.closure v hv (by simp) n hn).2
  | 0, ent :: rest, vis, inv, hmeas => by
    exfalso
    simp only [List.length_cons] at hmeas
    omega
  | fuel + 1, (c, p) :: rest, vis, inv, hmeas => by
    cases hscan : scanNeighbors e p (neighbors g c) vis with
    | none =>
      have hred : bfsLoop g e (fuel + 1) ((c, p) :: rest) vis = some (p ++ [e]) := by
        rw [bfsLoop, hscan]
      have he_mem : e ∈ neighbors g c :=
        (scanNeighbors_none_iff e p (neighbors g c) vis).mp hscan
      have hQc : QEntryOK g s vis (c, p) := inv.entries (c, p) (List.mem_cons_self _ _)
      refine ⟨fun path hpath => ?_, fun hnone => ?_⟩
      · rw [hred] at hpath
        have hpeq : path = p ++ [e] := (Option.some.injEq _ _).mp hpath.symm
        subst hpeq
        refine ⟨walk_snoc g s c e p hQc.walk he_mem, ?_, ?_⟩
        · rw [List.nodup_append]
          refine ⟨hQc.nodup, List.nodup_singleton _, ?_⟩
          intro a ha hb
          rw [List.mem_singleton.mp hb] at ha
          exact inv.e_not_mem (hQc.subVis e ha)
        · intro q hq
          have h2 : p.length + 1 ≤ q.length :=
            inv.frontier (c, p) rfl e inv.e_not_mem q hq
          simp
          omega
      · rw [hred] at hnone
        exact Option.noConfusion hnone
    | some r =>
      obtain ⟨news, vis2⟩ := r
      obtain ⟨inv2, hcard⟩ := LoopInv.step g s e c p rest news vis vis2 inv hscan
      have hred : bfsLoop g e (fuel + 1) ((c, p) :: rest) vis =
          bfsLoop g e fuel (rest ++ news) vis2 := by
        rw [bfsLoop, hscan]
      have hcard2 : vis2.card ≤ (allNodes g s).card :=
        Finset.card_le_card inv2.vis_sub
      have hmeas2 : (allNodes g s).card + 1 - vis2.card + (rest ++ news).length ≤ fuel := by
        rw [List.length_append]
        simp only [List.length_cons] at hmeas
        omega
      have IH := bfsLoop_spec g s e fuel (rest ++ news) vis2 inv2 hmeas2
      rw [hred]
      exact IH

/-- The invariant holds for the initial loop state. -/
theorem LoopInv.init (g : List (List ℕ)) (s e : ℕ) (hse : s ≠ e) :
    LoopInv g s e [(s, [s])] {s} := by
  refine ⟨?_, ?_, ?_, ?_, ?_, ?_, ?_, ?_, ?_⟩
  · exact Finset.mem_singleton_self s
  · intro hc
    exact hse (Finset.mem_singleton.mp hc).symm
  · intro x hx
    rw [Finset.mem_singleton.mp hx]
    exact mem_allNodes_self g s
  · intro ent hent
    rw [List.mem_singleton.mp hent]
    refine ⟨walkFrom_singleton g s, List.nodup_singleton s, ?_, ?_⟩
    · intro x hx
      rw [List.mem_singleton.mp hx]
      exact Finset.mem_singleton_self s
    · intro q hq
      simpa using walkFrom_length_pos g s s q hq
  · simp [List.Sorted]
  · intro a ha b hb
    simp at ha hb
    omega
  · simp
  · intro v hv hnot
    exfalso
    rw [Finset.mem_singleton.mp hv] at hnot
    simp at hnot
  · intro hd hhd u hu q hq
    have hhd_eq : hd = (s, [s]) := by
      simp at hhd
      exact hhd.symm
    subst hhd_eq
    simp only [List.length_singleton]
    have hus : u ≠ s := fun hc => hu (hc ▸ Finset.mem_singleton_self s)
    have := walkFrom_length_two g s u q hq (fun hc => hus hc.symm)
    omega

/-- C3: bfs_path on an adjacency-list graph with valid start and end face
indices: a returned sequence starts at `s`, ends at `e`, steps only between
adjacent faces, repeats no face, and its edge count is minimal among all
walks from `s` to `e`; the function returns some path exactly when `e` is
reachable from `s`, and `none` (a normal outcome) exactly when it is not. -/
theorem bfs_path_correct (g : List (List ℕ)) (s e : ℕ)
    (hs : s < g.length) (he : e < g.length)
    (hg : ∀ l ∈ g, ∀ n ∈ l, n < g.length) :
    (∀ p, bfs_path g s e = some p →
      p.head? = some s ∧ p.getLast? = some e ∧
      List.Chain' (fun a b => b ∈ neighbors g a) p ∧ p.Nodup ∧
      ∀ q, walkFrom g s e q → p.length ≤ q.length) ∧
    ((∃ q, walkFrom g s e q) → ∃ p, bfs_path g s e = some p) ∧
    (bfs_path g s e = none → ¬ ∃ q, walkFrom g s e q) := by
  by_cases hse : s = e
  · subst hse
    refine ⟨fun p hp => ?_, fun _ => ⟨[s], by rw [bfs_path, if_pos rfl]⟩, fun hc => ?_⟩
    · rw [bfs_path, if_pos rfl] at hp
      have : p = [s] := (Option.some.injEq _ _).mp hp.symm
      subst this
      refine ⟨rfl, rfl, List.chain'_singleton s, List.nodup_singleton s, ?_⟩
      intro q hq
      simpa using walkFrom_length_pos g s s q hq
    · rw [bfs_path, if_pos rfl] at hc
      exact Option.noConfusion hc
  · have hA : 1 ≤ (allNodes g s).card :=
      Finset.card_pos.mpr ⟨s, mem_allNodes_self g s⟩
    have hinit := LoopInv.init g s e hse
    have hcard1 : ({s} : Finset ℕ).card = 1 := Finset.card_singleton s
    have hmeas : (allNodes g s).card + 1 - ({s} : Finset ℕ).card +
        ([(s, [s])] : List (ℕ × List ℕ)).length ≤ (allNodes g s).card + 1 := by
      rw [hcard1]
      simp
    have hspec := bfsLoop_spec g s e ((allNodes g s).card + 1) [(s, [s])] {s}
      hinit hmeas
    have hred : bfs_path g s e =
        bfsLoop g e ((allNodes g s).card + 1) [(s, [s])] {s} := by
      rw [bfs_path, if_neg hse]
    refine ⟨fun p hp => ?_, fun hreach => ?_, fun hnone hreach => ?_⟩
    · rw [hred] at hp
      obtain ⟨hwalk, hnodup, hmin⟩ := hspec.1 p hp
      exact ⟨hwalk.1, hwalk.2.1, hwalk.2.2, hnodup, hmin⟩
    · cases hb : bfs_path g s e with
      | some p => exact ⟨p, rfl⟩
      | none =>
        exfalso
        rw [hred] at hb
        obtain ⟨q, hq⟩ := hreach
        exact hspec.2 hb q hq
    · rw [hred] at hnone
      obtain ⟨q, hq⟩ := hreach
      exact hspec.2 hnone q hq

/-- Concrete 4-face strip graph (faces 0-1-2-3 in a path). -/
def gStrip : List (List ℕ) := [[1], [0, 2], [1, 3], [2]]

theorem bfs_path_correct_witness :
    (0 < gStrip.length ∧ 3 < gStrip.length ∧
      ∀ l ∈ gStrip, ∀ n ∈ l, n < gStrip.length) ∧
    ((∀ p, bfs_path gStrip 0 3 = some p →
      p.head? = some 0 ∧ p.getLast? = some 3 ∧
      List.Chain' (fun a b => b ∈ neighbors gStrip a) p ∧ p.Nodup ∧
      ∀ q, walkFrom gStrip 0 3 q → p.length ≤ q.length) ∧
    ((∃ q, walkFrom gStrip 0 3 q) → ∃ p, bfs_path gStrip 0 3 = some p) ∧
    (bfs_path gStrip 0 3 = none → ¬ ∃ q, walkFrom gStrip 0 3 q)) :=
  ⟨⟨by decide, by decide, by decide⟩,
    bfs_path_correct gStrip 0 3 (by decide) (by decide) (by decide)⟩

/-- C9: bfs_path on identical start and end returns the single-element path
immediately, before any traversal (the first branch of the function). -/
theorem bfs_path_self (g : List (List ℕ)) (x : ℕ) :
    bfs_path g x x = some [x] := by
  rw [bfs_path, if_pos rfl]

end PathFinder
